import Mathlib

/-!
Shallow embedding of the BPoW_Simulator blockchain simulator.

Sources embedded here:
* src/utils/hash_utils.py  — compute_block_hash, hash_meets_difficulty
* src/sim/core.py          — Block, Blockchain (add_block, validate_block,
                             prune_old_branches, genesis construction)
* src/sim/difficulty.py    — DifficultyController
* src/sim_api.py + src/sim/miner.py — pause/resume lifecycle calls

Modelling conventions:
* Python ints are ℤ (ℕ where the value is structurally a count/level);
  float timestamps and float arithmetic are modelled by ℚ (exact rationals;
  every literal appearing in the claims is far from any binary-float
  rounding boundary);
* Python object identity and in-place mutation are modelled by an explicit
  object heap: a Blockchain state carries a heap (list of Block records);
  the blocks dict and the main chain hold heap indices, so aliasing between
  the dict and the chain list is represented faithfully;
* Python's process-salted builtin string hash is a parameter
  sh : String → ℤ threaded through every definition;
* dicts are insertion-ordered association lists; overwriting a key keeps
  its position (Python 3.7+ dict semantics);
* the unbounded while-True reorganisation walk of add_block runs on fuel
  bounded by the dict size: a terminating Python walk never visits an
  object twice (the walk is a deterministic function of the cursor, so a
  repeat means Python loops forever), hence fuel ≥ dict size + 1 reproduces
  every terminating run, and a cyclic (diverging) walk yields none at any
  fuel, which we map to the fork branch.
-/

attribute [local semireducible] Rat.mul Rat.add Rat.sub Rat.inv

namespace BPoW

/-- Decimal digit value of a character, as used when parsing Python int literals. -/
def charToDigit? (c : Char) : Option ℕ :=
  if '0' ≤ c ∧ c ≤ '9' then some (c.toNat - '0'.toNat) else none

/-- Accumulate decimal digits; none on any non-digit character. -/
def digitsToNat : List Char → ℕ → Option ℕ
  | [], acc => some acc
  | c :: cs, acc =>
    match charToDigit? c with
    | some d => digitsToNat cs (acc * 10 + d)
    | none => none

/-- Python int(s) on a string: an optional minus sign followed by one or
more decimal digits succeeds, anything else raises ValueError (none here).
The sources only ever pass plain decimal strings or clearly non-numeric
text, so the plus-sign/whitespace/underscore forms Python also accepts are
not modelled. -/
def pyIntOfString? (s : String) : Option ℤ :=
  match s.data with
  | [] => none
  | '-' :: rest =>
    if rest.isEmpty then none else (digitsToNat rest 0).map (fun n => -(n : ℤ))
  | l => (digitsToNat l 0).map (fun n => (n : ℤ))

/-- Reversed decimal digits of a natural number, fuel-driven. -/
def natToRevDigits : ℕ → ℕ → List Char
  | 0, _ => []
  | fuel + 1, n =>
    if n < 10 then [Char.ofNat (48 + n)]
    else Char.ofNat (48 + n % 10) :: natToRevDigits fuel (n / 10)

/-- Python str(z) for an integer z. -/
def pyStrOfInt (z : ℤ) : String :=
  if z < 0 then String.mk ('-' :: (natToRevDigits (z.natAbs + 1) z.natAbs).reverse)
  else String.mk (natToRevDigits (z.natAbs + 1) z.natAbs).reverse

/-- Python int(q) on a float: truncation toward zero. -/
def pyTrunc (q : ℚ) : ℤ := if 0 ≤ q then ⌊q⌋ else ⌈q⌉

/-- compute_block_hash from src/utils/hash_utils.py (the modulo-10000
educational digest). prev_hash is parsed as an int when it is a numeric
string, otherwise Python hash() — the parameter sh — is applied. -/
def compute_block_hash (sh : String → ℤ) (prev_hash : String) (height : ℤ)
    (timestamp : ℚ) (data : String) (nonce : ℤ) (miner_id : String) : ℤ :=
  let prev_hash_int : ℤ :=
    match pyIntOfString? prev_hash with
    | some n => n
    | none => sh prev_hash
  let combined : ℤ :=
    prev_hash_int + height * 7919 + pyTrunc (timestamp * 1000) * 6131 +
      sh data * 4969 + nonce * 3571 + sh miner_id * 2927
  ((combined.natAbs % 10000 : ℕ) : ℤ)

/-- threshold = 5000 // 2 ** difficulty from hash_meets_difficulty. -/
def threshold (difficulty : ℕ) : ℕ := 5000 / 2 ^ difficulty

/-- hash_meets_difficulty from src/utils/hash_utils.py: digest strictly
below the per-difficulty threshold. -/
def hash_meets_difficulty (block_hash : ℤ) (difficulty : ℕ) : Bool :=
  block_hash < (threshold difficulty : ℤ)

/-- Block dataclass from src/sim/core.py (hash always filled in; the
dataclass computes it in post-init when absent, and every call site in the
claims provides or computes it). -/
structure Block where
  height : ℤ
  prev_hash : String
  timestamp : ℚ
  data : String
  nonce : ℤ
  miner_id : String
  hash : ℤ
  accepted : Bool
deriving DecidableEq

instance : Inhabited Block := ⟨⟨0, "", 0, "", 0, "", 0, false⟩⟩

/-- Lookup in an insertion-ordered dict (first matching key). -/
def dictGet : List (String × ℕ) → String → Option ℕ
  | [], _ => none
  | (k, v) :: rest, key => if k = key then some v else dictGet rest key

/-- Dict write: overwrite in place, else append (Python 3.7+ order). -/
def dictSet : List (String × ℕ) → String → ℕ → List (String × ℕ)
  | [], key, val => [(key, val)]
  | (k, v) :: rest, key, val =>
    if k = key then (k, val) :: rest else (k, v) :: dictSet rest key val

/-- Read a heap cell (indices are always in range along reachable runs). -/
def heapGet (heap : List Block) (i : ℕ) : Block := heap.getD i default

/-- Blockchain state from src/sim/core.py. heap is the object store;
blocks (the _blocks dict) and main_chain (_main_chain) hold heap indices. -/
structure Blockchain where
  heap : List Block
  blocks : List (String × ℕ)
  main_chain : List ℕ
  difficulty : ℕ
deriving DecidableEq

/-- The 64-zero sentinel used as the genesis prev_hash. -/
def genesisSentinel : String :=
  "0000000000000000000000000000000000000000000000000000000000000000"

/-- Genesis block built by Blockchain._create_genesis_block at creation
time now. -/
def genesisBlock (sh : String → ℤ) (now : ℚ) : Block :=
  let h := compute_block_hash sh genesisSentinel 0 now "Genesis Block" 0 "genesis"
  { height := 0, prev_hash := genesisSentinel, timestamp := now,
    data := "Genesis Block", nonce := 0, miner_id := "genesis",
    hash := h, accepted := true }

/-- Blockchain.__init__: fresh store holding exactly the genesis block. -/
def Blockchain.init (sh : String → ℤ) (now : ℚ) : Blockchain :=
  let g := genesisBlock sh now
  { heap := [g], blocks := [(pyStrOfInt g.hash, 0)], main_chain := [0],
    difficulty := 4 }

/-- Heap index of the canonical tip (_main_chain[-1]). -/
def Blockchain.tipId (st : Blockchain) : ℕ := (st.main_chain.getLast?).getD 0

/-- The canonical tip block. -/
def Blockchain.tip (st : Blockchain) : Block := heapGet st.heap st.tipId

/-- Blockchain.validate_block from src/sim/core.py, with the ambient
wall clock passed as now. -/
def Blockchain.validate_block (sh : String → ℤ) (now : ℚ) (st : Blockchain)
    (b : Block) : Bool :=
  let computed := compute_block_hash sh b.prev_hash b.height b.timestamp
    b.data b.nonce b.miner_id
  if computed ≠ b.hash then false
  else if hash_meets_difficulty b.hash st.difficulty = false then false
  else if now + 7200 < b.timestamp then false
  else if b.height = 0 then true
  else
    match dictGet st.blocks b.prev_hash with
    | none => false
    | some pid =>
      if b.height ≠ (heapGet st.heap pid).height + 1 then false
      else if b.timestamp < (heapGet st.heap pid).timestamp then false
      else true

/-- The while-True ancestor walk of add_block: collect the cursor, follow
prev_hash through the dict, stop inclusively at a height-0 block, fail on a
missing ancestor. Fuel stands in for the unbounded loop (see module
comment). -/
def walkBack (heap : List Block) (pool : List (String × ℕ)) :
    ℕ → ℕ → Option (List ℕ)
  | 0, _ => none
  | fuel + 1, cur =>
    let c := heapGet heap cur
    match dictGet pool c.prev_hash with
    | none => none
    | some pid =>
      if (heapGet heap pid).height = 0 then some [cur, pid]
      else (walkBack heap pool fuel pid).map (cur :: ·)

/-- Set the accepted flag on each listed heap cell (the two marking loops
of add_block). -/
def markAccepted (heap : List Block) (ids : List ℕ) (v : Bool) : List Block :=
  ids.foldl (fun h i => h.set i { heapGet h i with accepted := v }) heap

/-- Blockchain.add_block from src/sim/core.py: validate, register in the
dict, and either reorganise to the new longer chain or keep the block as a
rejected fork. Returns the Python boolean and the new state. -/
def Blockchain.add_block (sh : String → ℤ) (now : ℚ) (st : Blockchain)
    (b : Block) : Bool × Blockchain :=
  if Blockchain.validate_block sh now st b = false then (false, st)
  else
    let bid := st.heap.length
    let heap1 := st.heap ++ [b]
    let pool1 := dictSet st.blocks (pyStrOfInt b.hash) bid
    if st.tip.height < b.height then
      match walkBack heap1 pool1 (pool1.length + b.height.natAbs + 2) bid with
      | some chainIds =>
        let newMain := chainIds.reverse
        let heap2 := markAccepted heap1 st.main_chain false
        let heap3 := markAccepted heap2 newMain true
        (true, { heap := heap3, blocks := pool1, main_chain := newMain,
                 difficulty := st.difficulty })
      | none =>
        (false, { heap := heap1.set bid { b with accepted := false },
                  blocks := pool1, main_chain := st.main_chain,
                  difficulty := st.difficulty })
    else
      (false, { heap := heap1.set bid { b with accepted := false },
                blocks := pool1, main_chain := st.main_chain,
                difficulty := st.difficulty })

/-- Value-equality membership of a block in the canonical chain, as used
by Python's in operator over the _main_chain list of dataclasses. -/
def Blockchain.inMain (st : Blockchain) (blk : Block) : Bool :=
  st.main_chain.any (fun cid => heapGet st.heap cid == blk)

/-- Blockchain.prune_old_branches from src/sim/core.py: drop dict entries
strictly below max(0, tip height - max_depth_behind) that are not
value-members of the canonical chain; return how many were dropped. -/
def Blockchain.prune_old_branches (st : Blockchain) (max_depth_behind : ℤ) :
    ℕ × Blockchain :=
  if st.main_chain.isEmpty then (0, st)
  else
    let threshold_height := max 0 (st.tip.height - max_depth_behind)
    let removeCond : String × ℕ → Bool := fun p =>
      !(st.inMain (heapGet st.heap p.2)) &&
        decide ((heapGet st.heap p.2).height < threshold_height)
    ((st.blocks.filter removeCond).length,
     { st with blocks := st.blocks.filter (fun p => !(removeCond p)) })

/-- DifficultyController state from src/sim/difficulty.py. -/
structure DifficultyController where
  target_block_time : ℚ
  current_difficulty : ℤ
  block_times : List ℚ
  last_adjustment_time : ℚ
deriving DecidableEq

/-- DifficultyController.__init__ with creation time now. -/
def DifficultyController.init (target_block_time now : ℚ) : DifficultyController :=
  ⟨target_block_time, 4, [], now⟩

/-- DifficultyController.adjust_difficulty: average the given intervals
and move the difficulty one step inside [1, 8] when the average is outside
[0.8, 1.2] times the target. Returns the Python return value and the
updated controller. -/
def DifficultyController.adjust_difficulty (c : DifficultyController)
    (recent_block_times : List ℚ) : ℤ × DifficultyController :=
  if recent_block_times.isEmpty then (c.current_difficulty, c)
  else
    let avg_block_time := recent_block_times.sum / (recent_block_times.length : ℚ)
    if avg_block_time < c.target_block_time * (8 / 10) then
      let d := min (c.current_difficulty + 1) 8
      (d, { c with current_difficulty := d })
    else if c.target_block_time * (12 / 10) < avg_block_time then
      let d := max (c.current_difficulty - 1) 1
      (d, { c with current_difficulty := d })
    else (c.current_difficulty, c)

/-- DifficultyController.record_block_time: append, then pop the oldest
sample once more than 10 are held. -/
def DifficultyController.record_block_time (c : DifficultyController)
    (t : ℚ) : DifficultyController :=
  let bt := c.block_times ++ [t]
  { c with block_times := if 10 < bt.length then bt.drop 1 else bt }

/-- DifficultyController.should_adjust_difficulty: a 60-second wall-clock
timer since the last adjustment. -/
def DifficultyController.should_adjust_difficulty (c : DifficultyController)
    (now : ℚ) : Bool :=
  60 < now - c.last_adjustment_time

/-- Method names defined on the Miner class in src/sim/miner.py (both
merge-conflict branches of the file included; neither defines pause or
resume). -/
def minerMethods : List String :=
  ["start", "stop", "set_hash_rate", "get_hash_rate", "is_running"]

/-- Attribute lookup on a Miner instance succeeds only for defined
methods. -/
def minerHasMethod (m : String) : Bool := minerMethods.contains m

/-- Orchestrator lifecycle state relevant to pause/resume (sim_api module
globals _simulation_running, _simulation_paused, and the miner list
size). -/
structure SimState where
  running : Bool
  paused : Bool
  minerCount : ℕ
deriving DecidableEq

/-- pause_simulation from src/sim_api.py: no-op unless running and not
paused; sets the paused flag, then calls miner.pause() on every miner — an
attribute that does not exist raises AttributeError (returned as the
second component). -/
def pause_simulation (st : SimState) : SimState × Option String :=
  if !st.running || st.paused then (st, none)
  else
    let st1 := { st with paused := true }
    if 0 < st.minerCount && !(minerHasMethod "pause") then
      (st1, some "AttributeError: Miner has no attribute pause")
    else (st1, none)

/-- resume_simulation from src/sim_api.py: no-op unless running and
paused; clears the paused flag, then calls miner.resume() on every
miner. -/
def resume_simulation (st : SimState) : SimState × Option String :=
  if !st.running || !st.paused then (st, none)
  else
    let st1 := { st with paused := false }
    if 0 < st.minerCount && !(minerHasMethod "resume") then
      (st1, some "AttributeError: Miner has no attribute resume")
    else (st1, none)

/-- Concrete instance of the salted Python string hash, used for concrete
witness states. -/
def shZero : String → ℤ := fun _ => 0

/-- Well-formedness of the blocks dict: every entry points inside the heap
and is keyed by the decimal string of its digest. -/
def PoolWF (st : Blockchain) : Prop :=
  ∀ k id, dictGet st.blocks k = some id →
    id < st.heap.length ∧ pyStrOfInt (heapGet st.heap id).hash = k

/-- Every non-genesis dict entry has a nonnegative height and a parent in
the dict sitting exactly one height below it. -/
def ParentWF (st : Blockchain) : Prop :=
  ∀ k id, dictGet st.blocks k = some id →
    0 ≤ (heapGet st.heap id).height ∧
    ((heapGet st.heap id).height ≠ 0 →
      ∃ pid, dictGet st.blocks (heapGet st.heap id).prev_hash = some pid ∧
        (heapGet st.heap pid).height + 1 = (heapGet st.heap id).height)

/-- The canonical chain is nonempty, indexes into the heap, and its tip
height is nonnegative. -/
def MainWF (st : Blockchain) : Prop :=
  st.main_chain ≠ [] ∧ (∀ id ∈ st.main_chain, id < st.heap.length) ∧
    0 ≤ st.tip.height

/-- The canonical-chain invariant of the claim: each block after the first
carries its predecessor's digest string as prev_hash and sits exactly one
height above it. -/
def chainLinked (st : Blockchain) : Prop :=
  ∀ i, i + 1 < st.main_chain.length →
    (heapGet st.heap (st.main_chain.getD (i + 1) 0)).prev_hash
        = pyStrOfInt (heapGet st.heap (st.main_chain.getD i 0)).hash ∧
    (heapGet st.heap (st.main_chain.getD (i + 1) 0)).height
        = (heapGet st.heap (st.main_chain.getD i 0)).height + 1

/-- Inductive invariant carried through add_block. -/
def Inv (st : Blockchain) : Prop := PoolWF st ∧ ParentWF st ∧ MainWF st ∧ chainLinked st

/-- States reachable from a fresh store by add_block calls in which no
submitted block reuses a digest string already present in the dict (the
no-collision proviso of the amended claim C2). -/
inductive ReachableNC (sh : String → ℤ) : Blockchain → Prop where
  | init (now : ℚ) : ReachableNC sh (Blockchain.init sh now)
  | step (st : Blockchain) (b : Block) (now : ℚ) : ReachableNC sh st →
      dictGet st.blocks (pyStrOfInt b.hash) = none →
      ReachableNC sh (Blockchain.add_block sh now st b).2

/-! Helper lemmas about the heap and dict encodings. -/

theorem heapGet_append_lt (heap bs : List Block) (i : ℕ) (h : i < heap.length) :
    heapGet (heap ++ bs) i = heapGet heap i := by
  induction heap generalizing i with
  | nil => simp at h
  | cons a t ih =>
    cases i with
    | zero => rfl
    | succ j => exact ih j (by simpa using h)

theorem heapGet_append_len (heap : List Block) (b : Block) :
    heapGet (heap ++ [b]) heap.length = b := by
  induction heap with
  | nil => rfl
  | cons a t ih => simpa using ih

theorem heapGet_set_ne (heap : List Block) (i j : ℕ) (b : Block) (h : i ≠ j) :
    heapGet (heap.set i b) j = heapGet heap j := by
  induction heap generalizing i j with
  | nil => rfl
  | cons a t ih =>
    cases i with
    | zero =>
      cases j with
      | zero => exact absurd rfl h
      | succ j' => rfl
    | succ i' =>
      cases j with
      | zero => rfl
      | succ j' => exact ih i' j' (by omega)

theorem heapGet_set_lt (heap : List Block) (i : ℕ) (b : Block) (h : i < heap.length) :
    heapGet (heap.set i b) i = b := by
  induction heap generalizing i with
  | nil => simp at h
  | cons a t ih =>
    cases i with
    | zero => rfl
    | succ i' => exact ih i' (by simpa using h)

theorem dictGet_dictSet (d : List (String × ℕ)) (k : String) (v : ℕ) (k' : String) :
    dictGet (dictSet d k v) k' = if k' = k then some v else dictGet d k' := by
  induction d with
  | nil =>
    by_cases h : k' = k
    · subst h; simp [dictSet, dictGet]
    · have h' : ¬(k = k') := fun hh => h hh.symm
      simp [dictSet, dictGet, h, h']
  | cons p t ih =>
    obtain ⟨pk, pv⟩ := p
    by_cases h1 : pk = k
    · subst h1
      by_cases h2 : k' = pk
      · subst h2; simp [dictSet, dictGet]
      · have h2' : ¬(pk = k') := fun hh => h2 hh.symm
        simp [dictSet, dictGet, h2, h2']
    · by_cases h2 : pk = k'
      · subst h2
        simp [dictSet, dictGet, h1]
      · have h2' : ¬(k' = pk) := fun hh => h2 hh.symm
        simp [dictSet, dictGet, h1, h2, h2', ih]

/-- Full behavioural characterization of validate_block, shared by several
claims below. -/
theorem validate_true_iff (sh : String → ℤ) (now : ℚ) (st : Blockchain) (b : Block) :
    Blockchain.validate_block sh now st b = true ↔
      (compute_block_hash sh b.prev_hash b.height b.timestamp b.data b.nonce b.miner_id
          = b.hash ∧
       hash_meets_difficulty b.hash st.difficulty = true ∧
       b.timestamp ≤ now + 7200 ∧
       (b.height = 0 ∨
         ∃ pid, dictGet st.blocks b.prev_hash = some pid ∧
           b.height = (heapGet st.heap pid).height + 1 ∧
           (heapGet st.heap pid).timestamp ≤ b.timestamp)) := by
  unfold Blockchain.validate_block
  by_cases h1 : compute_block_hash sh b.prev_hash b.height b.timestamp b.data b.nonce
      b.miner_id = b.hash
  · rw [if_neg (not_not_intro h1)]
    by_cases hd : hash_meets_difficulty b.hash st.difficulty = false
    · simp [hd]
    · have hd' : hash_meets_difficulty b.hash st.difficulty = true := by
        revert hd; cases hash_meets_difficulty b.hash st.difficulty <;> simp
      rw [if_neg hd]
      by_cases ht : now + 7200 < b.timestamp
      · rw [if_pos ht]
        simp [h1, hd', show ¬(b.timestamp ≤ now + 7200) from not_le.mpr ht]
      · rw [if_neg ht]
        have ht' : b.timestamp ≤ now + 7200 := not_lt.mp ht
        by_cases hz : b.height = 0
        · rw [if_pos hz]
          simp only [true_iff]
          exact ⟨h1, hd', ht', Or.inl hz⟩
        · rw [if_neg hz]
          rcases hdg : dictGet st.blocks b.prev_hash with _ | pid
          · simp [h1, hd', ht', hz]
          · simp only [Option.some.injEq]
            by_cases hh : b.height = (heapGet st.heap pid).height + 1
            · by_cases hts : b.timestamp < (heapGet st.heap pid).timestamp
              · rw [if_neg (not_not_intro hh), if_pos hts]
                constructor
                · intro hF; exact absurd hF (by simp)
                · rintro ⟨-, -, -, h0 | ⟨pid', rfl, -, htse⟩⟩
                  · exact absurd h0 hz
                  · exact absurd htse (not_le.mpr hts)
              · rw [if_neg (not_not_intro hh), if_neg hts]
                simp only [true_iff]
                refine ⟨h1, hd', ht', Or.inr ⟨pid, rfl, hh, not_lt.mp hts⟩⟩
            · rw [if_pos hh]
              simp [h1, hd', ht', hz, hh]
  · simp [h1]

/-- C4 (amended): validate_block accepts exactly the blocks whose
recomputed digest matches the stored hash, whose stored hash meets the
current difficulty, whose timestamp is at most 7200 seconds ahead of the
clock, and which are either height 0 or sit exactly one height above a
known parent no newer than themselves. (Digest-preserving nonce tampers —
changes by a multiple of 10000 — are not caught; see the
counterexample.) -/
theorem claim4_validate_block_characterization (sh : String → ℤ) (now : ℚ)
    (st : Blockchain) (b : Block) :
    Blockchain.validate_block sh now st b = true ↔
      (compute_block_hash sh b.prev_hash b.height b.timestamp b.data b.nonce b.miner_id
          = b.hash ∧
       hash_meets_difficulty b.hash st.difficulty = true ∧
       b.timestamp ≤ now + 7200 ∧
       (b.height = 0 ∨
         ∃ pid, dictGet st.blocks b.prev_hash = some pid ∧
           b.height = (heapGet st.heap pid).height + 1 ∧
           (heapGet st.heap pid).timestamp ≤ b.timestamp)) :=
  validate_true_iff sh now st b

/-- C4 counterexample: adding 10000 to the nonce leaves the modulo-10000
digest unchanged, so the tampered block still validates (difficulty 4,
fresh store) — the claim asserted validate must fail on any nonce
tamper. -/
theorem claim4_counterexample :
    compute_block_hash shZero "0" 0 0 "d" 0 "m"
        = compute_block_hash shZero "0" 0 0 "d" 10000 "m" ∧
    (10000 : ℤ) ≠ 0 ∧
    compute_block_hash shZero "0" 0 0 "d" 0 "m" = 0 ∧
    Blockchain.validate_block shZero 0 (Blockchain.init shZero 0)
      ⟨0, "0", 0, "d", 10000, "m", 0, false⟩ = true := by decide

/-- C6: the per-difficulty threshold is monotonically non-increasing, so
any digest meeting a higher difficulty also meets every lower one. -/
theorem claim6_threshold_monotone (d1 d2 : ℕ) (digest : ℤ) (h : d1 ≤ d2) :
    threshold d2 ≤ threshold d1 ∧
    (hash_meets_difficulty digest d2 = true → hash_meets_difficulty digest d1 = true) := by
  have hth : threshold d2 ≤ threshold d1 := by
    unfold threshold
    exact Nat.div_le_div_left (Nat.pow_le_pow_right (by norm_num) h)
      (pow_pos (by norm_num) d1)
  refine ⟨hth, fun hm => ?_⟩
  unfold hash_meets_difficulty at hm ⊢
  simp only [decide_eq_true_eq] at hm ⊢
  omega

/-- C6 witness: a concrete instantiation at difficulties 1 and 0 and
digest 100. -/
theorem claim6_witness :
    1 ≤ 2 ∧ hash_meets_difficulty 100 2 = true ∧
    threshold 2 ≤ threshold 1 ∧ hash_meets_difficulty 100 1 = true :=
  ⟨by decide, by decide, (claim6_threshold_monotone 1 2 100 (by decide)).1,
   (claim6_threshold_monotone 1 2 100 (by decide)).2 (by decide)⟩

/-- C7: a freshly constructed store holds exactly the genesis block: one
heap cell, one dict entry keyed by its digest string, the one-element
canonical chain, the sentinel parent, height 0, and the accepted flag. -/
theorem claim7_fresh_store (sh : String → ℤ) (now : ℚ) :
    (Blockchain.init sh now).heap = [genesisBlock sh now] ∧
    (Blockchain.init sh now).main_chain = [0] ∧
    (Blockchain.init sh now).blocks = [(pyStrOfInt (genesisBlock sh now).hash, 0)] ∧
    (Blockchain.init sh now).tip = genesisBlock sh now ∧
    (genesisBlock sh now).height = 0 ∧
    (genesisBlock sh now).prev_hash = genesisSentinel ∧
    (genesisBlock sh now).accepted = true :=
  ⟨rfl, rfl, rfl, rfl, rfl, rfl, rfl⟩

/-- C8 (code bug): with the simulation running and one miner, pausing and
resuming both raise AttributeError, because the Miner class defines no
pause or resume method even though sim_api calls them. -/
theorem claim8_pause_resume_attribute_error :
    (pause_simulation ⟨true, false, 1⟩).2
        = some "AttributeError: Miner has no attribute pause" ∧
    (resume_simulation ⟨true, true, 1⟩).2
        = some "AttributeError: Miner has no attribute resume" := by decide

/-- C9: once 2 to the difficulty exceeds 5000 (difficulty 13 and up) the
integer threshold is 0, so no nonnegative digest can ever meet the
difficulty. -/
theorem claim9_high_difficulty_impossible (digest : ℤ) (d : ℕ)
    (h0 : 0 ≤ digest) (hd : 13 ≤ d) :
    threshold d = 0 ∧ hash_meets_difficulty digest d = false := by
  have hpow : 5000 < 2 ^ d :=
    lt_of_lt_of_le (by norm_num) (Nat.pow_le_pow_right (by norm_num) hd)
  have hth : threshold d = 0 := Nat.div_eq_of_lt hpow
  refine ⟨hth, ?_⟩
  unfold hash_meets_difficulty
  rw [hth]
  simp only [decide_eq_false_iff_not]
  omega

/-- C9 witness: digest 0 at difficulty 13. -/
theorem claim9_witness :
    (0 : ℤ) ≤ 0 ∧ 13 ≤ 13 ∧ threshold 13 = 0 ∧
    hash_meets_difficulty 0 13 = false :=
  ⟨le_refl 0, le_refl 13, (claim9_high_difficulty_impossible 0 13 le_rfl le_rfl).1,
   (claim9_high_difficulty_impossible 0 13 le_rfl le_rfl).2⟩

/-- C10: every height-0 block whose digest matches, meets the difficulty,
and is not too far in the future validates, whatever its prev_hash: all
continuity checks are skipped at height 0. -/
theorem claim10_genesis_like_validates (sh : String → ℤ) (now : ℚ)
    (st : Blockchain) (b : Block)
    (hh : b.height = 0)
    (hhash : compute_block_hash sh b.prev_hash b.height b.timestamp b.data b.nonce
        b.miner_id = b.hash)
    (hdiff : hash_meets_difficulty b.hash st.difficulty = true)
    (hts : b.timestamp ≤ now + 7200) :
    Blockchain.validate_block sh now st b = true := by
  unfold Blockchain.validate_block
  rw [if_neg (not_not_intro hhash)]
  rw [if_neg (by simp [hdiff])]
  rw [if_neg (not_lt.mpr hts)]
  rw [if_pos hh]

/-- C10 witness: a second genesis-like block whose prev_hash is the
arbitrary non-numeric string junk still validates against a fresh
store. -/
theorem claim10_witness :
    ((⟨0, "junk", 0, "d", 0, "m", 0, false⟩ : Block).height = 0) ∧
    compute_block_hash shZero "junk" 0 0 "d" 0 "m" = (0 : ℤ) ∧
    hash_meets_difficulty 0 (Blockchain.init shZero 0).difficulty = true ∧
    ((0 : ℚ) ≤ 0 + 7200) ∧
    ("junk" : String) ≠ genesisSentinel ∧
    Blockchain.validate_block shZero 0 (Blockchain.init shZero 0)
      ⟨0, "junk", 0, "d", 0, "m", 0, false⟩ = true :=
  ⟨rfl, by decide, by decide, by norm_num, by decide,
   claim10_genesis_like_validates shZero 0 (Blockchain.init shZero 0)
     ⟨0, "junk", 0, "d", 0, "m", 0, false⟩ rfl (by decide) (by decide) (by norm_num)⟩

/-- C1 (amended): adjust_difficulty averages the supplied intervals and
moves the difficulty by exactly one step clamped to [1, 8] when the
average falls below 0.8 times target or above 1.2 times target, holding it
otherwise; it never clears the recorded window, and it leaves the target
unchanged. -/
theorem claim1_adjust_difficulty_thresholds (c : DifficultyController)
    (r : List ℚ) (h : r ≠ []) :
    (c.adjust_difficulty r).1 =
      (if r.sum / (r.length : ℚ) < c.target_block_time * (8 / 10) then
         min (c.current_difficulty + 1) 8
       else if c.target_block_time * (12 / 10) < r.sum / (r.length : ℚ) then
         max (c.current_difficulty - 1) 1
       else c.current_difficulty) ∧
    (c.adjust_difficulty r).2.current_difficulty = (c.adjust_difficulty r).1 ∧
    (c.adjust_difficulty r).2.block_times = c.block_times ∧
    (c.adjust_difficulty r).2.target_block_time = c.target_block_time := by
  have hne : r.isEmpty = false := by
    cases r with
    | nil => exact absurd rfl h
    | cons a t => rfl
  simp only [DifficultyController.adjust_difficulty, hne, Bool.false_eq_true, if_false]
  by_cases hA : r.sum / (r.length : ℚ) < c.target_block_time * (8 / 10)
  · rw [if_pos hA, if_pos hA]
    exact ⟨rfl, rfl, rfl, rfl⟩
  · rw [if_neg hA, if_neg hA]
    by_cases hB : c.target_block_time * (12 / 10) < r.sum / (r.length : ℚ)
    · rw [if_pos hB, if_pos hB]
      exact ⟨rfl, rfl, rfl, rfl⟩
    · rw [if_neg hB, if_neg hB]
      exact ⟨rfl, rfl, rfl, rfl⟩

/-- C1 witness: target 10 and five 4-second samples move difficulty 4 up
to exactly 5 (the scenario retained by the amended claim). -/
theorem claim1_witness :
    ([(4 : ℚ), 4, 4, 4, 4] ≠ []) ∧
    ((⟨10, 4, [], 0⟩ : DifficultyController).adjust_difficulty
        [(4 : ℚ), 4, 4, 4, 4]).1 = 5 ∧
    ((⟨10, 4, [], 0⟩ : DifficultyController).adjust_difficulty
        [(4 : ℚ), 4, 4, 4, 4]).2.block_times = [] :=
  ⟨by decide,
   ((claim1_adjust_difficulty_thresholds ⟨10, 4, [], 0⟩ [(4 : ℚ), 4, 4, 4, 4]
      (by decide)).1).trans (by decide),
   (claim1_adjust_difficulty_thresholds ⟨10, 4, [], 0⟩ [(4 : ℚ), 4, 4, 4, 4]
      (by decide)).2.2.1⟩

/-- C1 counterexample: with target 10, current difficulty 4 and a
five-sample window, the single interval 8.5 is below 0.9 times the target,
so the claim demands difficulty 5 and a cleared window; the code holds the
difficulty at 4 (its threshold is 0.8 times target) and leaves the window
untouched. -/
theorem claim1_counterexample :
    ((17 : ℚ) / 2 < (9 / 10) * 10) ∧
    ((⟨10, 4, [(4 : ℚ), 4, 4, 4, 4], 0⟩ : DifficultyController).adjust_difficulty
        [(17 : ℚ) / 2]).1 = 4 ∧
    ((⟨10, 4, [(4 : ℚ), 4, 4, 4, 4], 0⟩ : DifficultyController).adjust_difficulty
        [(17 : ℚ) / 2]).2.block_times = [(4 : ℚ), 4, 4, 4, 4] := by decide

/-- C3: a block whose height does not exceed the canonical tip height is
never accepted: add_block returns False, the canonical chain sequence is
unchanged, and every heap cell the canonical chain points at (in
particular its accepted flag) is untouched. -/
theorem claim3_equal_height_never_displaces (sh : String → ℤ) (now : ℚ)
    (st : Blockchain) (b : Block)
    (hne : st.main_chain ≠ [])
    (hids : ∀ id ∈ st.main_chain, id < st.heap.length)
    (hh : b.height ≤ st.tip.height) :
    (Blockchain.add_block sh now st b).1 = false ∧
    (Blockchain.add_block sh now st b).2.main_chain = st.main_chain ∧
    (∀ id ∈ st.main_chain,
      heapGet (Blockchain.add_block sh now st b).2.heap id = heapGet st.heap id) := by
  have hne' : st.main_chain ≠ [] := hne
  clear hne
  unfold Blockchain.add_block
  by_cases hv : Blockchain.validate_block sh now st b = false
  · rw [if_pos hv]
    exact ⟨rfl, rfl, fun id _ => rfl⟩
  · rw [if_neg hv, if_neg (not_lt.mpr hh)]
    refine ⟨rfl, rfl, fun id hid => ?_⟩
    have hlt : id < st.heap.length := hids id hid
    rw [heapGet_set_ne _ _ _ _ (by omega)]
    exact heapGet_append_lt _ _ _ hlt

/-- C3 witness: a height-0 competitor against a fresh store (tip height 0)
is rejected and the canonical chain survives unchanged. -/
theorem claim3_witness :
    ((Blockchain.init shZero 0).main_chain ≠ []) ∧
    (∀ id ∈ (Blockchain.init shZero 0).main_chain,
      id < (Blockchain.init shZero 0).heap.length) ∧
    ((⟨0, "0", 0, "d", 0, "m", 1, false⟩ : Block).height
        ≤ (Blockchain.init shZero 0).tip.height) ∧
    (Blockchain.add_block shZero 0 (Blockchain.init shZero 0)
      ⟨0, "0", 0, "d", 0, "m", 1, false⟩).1 = false ∧
    (Blockchain.add_block shZero 0 (Blockchain.init shZero 0)
      ⟨0, "0", 0, "d", 0, "m", 1, false⟩).2.main_chain
        = (Blockchain.init shZero 0).main_chain :=
  ⟨by decide, by decide, by decide,
   (claim3_equal_height_never_displaces shZero 0 (Blockchain.init shZero 0)
     ⟨0, "0", 0, "d", 0, "m", 1, false⟩ (by decide) (by decide) (by decide)).1,
   (claim3_equal_height_never_displaces shZero 0 (Blockchain.init shZero 0)
     ⟨0, "0", 0, "d", 0, "m", 1, false⟩ (by decide) (by decide) (by decide)).2.1⟩

/-- C5: prune removes exactly the dict entries lying more than
max_depth_behind below the tip that are not value-members of the canonical
chain, returns their count, keeps every canonical entry, and touches
neither the canonical chain nor the heap. -/
theorem claim5_prune_characterization (st : Blockchain) (k : ℤ)
    (hk : 0 ≤ k)
    (hne : st.main_chain ≠ [])
    (hhts : ∀ p ∈ st.blocks, 0 ≤ (heapGet st.heap p.2).height) :
    (st.prune_old_branches k).1 =
      (st.blocks.filter (fun p =>
        decide (k < st.tip.height - (heapGet st.heap p.2).height) &&
          !(st.inMain (heapGet st.heap p.2)))).length ∧
    (st.prune_old_branches k).2.blocks =
      st.blocks.filter (fun p =>
        !(decide (k < st.tip.height - (heapGet st.heap p.2).height) &&
          !(st.inMain (heapGet st.heap p.2)))) ∧
    (∀ p ∈ st.blocks, st.inMain (heapGet st.heap p.2) = true →
      p ∈ (st.prune_old_branches k).2.blocks) ∧
    (st.prune_old_branches k).2.main_chain = st.main_chain ∧
    (st.prune_old_branches k).2.heap = st.heap := by
  have hie : st.main_chain.isEmpty = false := by
    cases hmc : st.main_chain with
    | nil => exact absurd hmc hne
    | cons a t => rfl
  have hpt : ∀ p ∈ st.blocks,
      (!(st.inMain (heapGet st.heap p.2)) &&
        decide ((heapGet st.heap p.2).height < max 0 (st.tip.height - k)))
      = (decide (k < st.tip.height - (heapGet st.heap p.2).height) &&
          !(st.inMain (heapGet st.heap p.2))) := by
    intro p hp
    have h0 : 0 ≤ (heapGet st.heap p.2).height := hhts p hp
    have hiff : ((heapGet st.heap p.2).height < max 0 (st.tip.height - k))
        ↔ (k < st.tip.height - (heapGet st.heap p.2).height) := by omega
    rw [Bool.and_comm, decide_eq_decide.mpr hiff]
  unfold Blockchain.prune_old_branches
  rw [if_neg (by simp [hie])]
  refine ⟨?_, ?_, ?_, rfl, rfl⟩
  · exact congrArg List.length (List.filter_congr hpt)
  · exact List.filter_congr (fun p hp => by simp only [hpt p hp])
  · intro p hp hmain
    have hfalse : (!(st.inMain (heapGet st.heap p.2)) &&
        decide ((heapGet st.heap p.2).height < max 0 (st.tip.height - k))) = false := by
      rw [hmain]; rfl
    refine List.mem_filter.mpr ⟨hp, ?_⟩
    simp only [hfalse, Bool.not_false]

/-- C5 witness: pruning a fresh store with depth 0 removes nothing and
keeps the canonical genesis entry. -/
theorem claim5_witness :
    ((0 : ℤ) ≤ 0) ∧
    ((Blockchain.init shZero 0).main_chain ≠ []) ∧
    (∀ p ∈ (Blockchain.init shZero 0).blocks,
      0 ≤ (heapGet (Blockchain.init shZero 0).heap p.2).height) ∧
    ((Blockchain.init shZero 0).prune_old_branches 0).1 = 0 ∧
    ((Blockchain.init shZero 0).prune_old_branches 0).2.blocks
        = (Blockchain.init shZero 0).blocks :=
  ⟨le_refl 0, by decide, by decide,
   ((claim5_prune_characterization (Blockchain.init shZero 0) 0 le_rfl (by decide)
      (by decide)).1).trans (by decide),
   ((claim5_prune_characterization (Blockchain.init shZero 0) 0 le_rfl (by decide)
      (by decide)).2.1).trans (by decide)⟩

/-! Machinery for the canonical-chain invariant (claim C2). -/

/-- Membership of a heap index among the dict values. -/
def InPool (pool : List (String × ℕ)) (id : ℕ) : Prop :=
  ∃ k, dictGet pool k = some id

/-- Walk-order link: x stores y's digest string and sits one above it. -/
def descLink (heap : List Block) (x y : ℕ) : Prop :=
  (heapGet heap x).prev_hash = pyStrOfInt (heapGet heap y).hash ∧
  (heapGet heap x).height = (heapGet heap y).height + 1

theorem markAccepted_nil (heap : List Block) (v : Bool) :
    markAccepted heap [] v = heap := rfl

theorem markAccepted_cons (heap : List Block) (i : ℕ) (t : List ℕ) (v : Bool) :
    markAccepted heap (i :: t) v
      = markAccepted (heap.set i { heapGet heap i with accepted := v }) t v := rfl

theorem markAccepted_length (heap : List Block) (ids : List ℕ) (v : Bool) :
    (markAccepted heap ids v).length = heap.length := by
  induction ids generalizing heap with
  | nil => rfl
  | cons i t ih =>
    rw [markAccepted_cons, ih, List.length_set]

theorem heapGet_markAccepted (heap : List Block) (ids : List ℕ) (v : Bool) (j : ℕ) :
    ∃ a : Bool, heapGet (markAccepted heap ids v) j = { heapGet heap j with accepted := a } := by
  induction ids generalizing heap with
  | nil => exact ⟨(heapGet heap j).accepted, rfl⟩
  | cons i t ih =>
    rw [markAccepted_cons]
    obtain ⟨a, ha⟩ := ih (heap.set i { heapGet heap i with accepted := v })
    by_cases hij : i = j
    · subst hij
      by_cases hlt : i < heap.length
      · rw [ha, heapGet_set_lt _ _ _ hlt]
        exact ⟨a, rfl⟩
      · rw [ha, List.set_eq_of_length_le (by omega)]
        exact ⟨a, rfl⟩
    · rw [ha, heapGet_set_ne _ _ _ _ hij]
      exact ⟨a, rfl⟩

/-- Under the pool well-formedness and parent invariants, the ancestor
walk terminates with a fully linked descending chain whenever it starts
from a pool value of nonzero height and enough fuel. -/
theorem walkBack_ok (heap : List Block) (pool : List (String × ℕ))
    (hWF : ∀ k id, dictGet pool k = some id →
      id < heap.length ∧ pyStrOfInt (heapGet heap id).hash = k)
    (hPar : ∀ k id, dictGet pool k = some id →
      0 ≤ (heapGet heap id).height ∧
      ((heapGet heap id).height ≠ 0 →
        ∃ pid, dictGet pool (heapGet heap id).prev_hash = some pid ∧
          (heapGet heap pid).height + 1 = (heapGet heap id).height)) :
    ∀ (fuel cur : ℕ), InPool pool cur → (heapGet heap cur).height ≠ 0 →
      (heapGet heap cur).height.natAbs < fuel →
      ∃ l, walkBack heap pool fuel cur = some l ∧
        l.head? = some cur ∧
        List.Chain' (descLink heap) l ∧
        (∀ id ∈ l, id < heap.length) := by
  intro fuel
  induction fuel with
  | zero => intro cur _ _ hf; omega
  | succ n ih =>
    intro cur hin hnz hf
    obtain ⟨kc, hkc⟩ := hin
    have hcur := hWF kc cur hkc
    obtain ⟨hge, hstep⟩ := hPar kc cur hkc
    obtain ⟨pid, hpid, hph⟩ := hstep hnz
    have hpidWF := hWF _ pid hpid
    have hlink : descLink heap cur pid := ⟨hpidWF.2.symm, hph.symm⟩
    by_cases hz : (heapGet heap pid).height = 0
    · refine ⟨[cur, pid], ?_, rfl, ?_, ?_⟩
      · simp only [walkBack, hpid]
        rw [if_pos hz]
      · exact List.chain'_cons.mpr ⟨hlink, List.chain'_singleton pid⟩
      · intro id hid
        rcases List.mem_cons.mp hid with rfl | hid2
        · exact hcur.1
        · rcases List.mem_cons.mp hid2 with rfl | hid3
          · exact hpidWF.1
          · cases hid3
    · have hf2 : (heapGet heap pid).height.natAbs < n := by
        have h2 := (hPar _ pid hpid).1
        omega
      obtain ⟨l, hwl, hhead, hchain, hmem⟩ := ih pid ⟨_, hpid⟩ hz hf2
      refine ⟨cur :: l, ?_, rfl, ?_, ?_⟩
      · simp only [walkBack, hpid]
        rw [if_neg hz, hwl]
        rfl
      · refine List.chain'_cons'.mpr ⟨?_, hchain⟩
        intro b hb
        rw [hhead, Option.mem_some_iff] at hb
        subst hb
        exact hlink
      · intro id hid
        rcases List.mem_cons.mp hid with rfl | hid2
        · exact hcur.1
        · exact hmem _ hid2

/-- A descending chain, reversed into genesis-to-tip order, yields the
indexed canonical-chain invariant. -/
theorem chainLinked_of_chain' (heap : List Block) (pool : List (String × ℕ))
    (main : List ℕ) (diff : ℕ)
    (h : List.Chain' (fun x y => descLink heap y x) main) :
    chainLinked ⟨heap, pool, main, diff⟩ := by
  intro i hi
  change i + 1 < main.length at hi
  have hlt0 : i < main.length := by omega
  have hi' : i < main.length - 1 := by omega
  have hR := List.chain'_iff_get.mp h i hi'
  have hgi : main.getD i 0 = main.get ⟨i, hlt0⟩ := List.getD_eq_getElem main 0 hlt0
  have hgi1 : main.getD (i + 1) 0 = main.get ⟨i + 1, hi⟩ := List.getD_eq_getElem main 0 hi
  change (heapGet heap (main.getD (i + 1) 0)).prev_hash
      = pyStrOfInt (heapGet heap (main.getD i 0)).hash ∧
    (heapGet heap (main.getD (i + 1) 0)).height
      = (heapGet heap (main.getD i 0)).height + 1
  rw [hgi, hgi1]
  exact hR

/-- The invariant only inspects heights, parent digests, digest strings
and indices, never the accepted flags, so it transfers across any heap
rewrite that preserves every cell up to its accepted flag. -/
theorem Inv_transfer (heapA heapB : List Block) (pool : List (String × ℕ))
    (main : List ℕ) (diffA diffB : ℕ)
    (hlen : heapB.length = heapA.length)
    (hfields : ∀ j, ∃ a, heapGet heapB j = { heapGet heapA j with accepted := a }) :
    Inv ⟨heapA, pool, main, diffA⟩ → Inv ⟨heapB, pool, main, diffB⟩ := by
  rintro ⟨hPool, hPar, ⟨hMne, hMids, hMtip⟩, hLink⟩
  have hPool' : ∀ k id, dictGet pool k = some id →
      id < heapA.length ∧ pyStrOfInt (heapGet heapA id).hash = k := hPool
  have hPar' : ∀ k id, dictGet pool k = some id →
      0 ≤ (heapGet heapA id).height ∧
      ((heapGet heapA id).height ≠ 0 →
        ∃ pid, dictGet pool (heapGet heapA id).prev_hash = some pid ∧
          (heapGet heapA pid).height + 1 = (heapGet heapA id).height) := hPar
  have hMids' : ∀ id ∈ main, id < heapA.length := hMids
  have hMtip' : 0 ≤ (heapGet heapA ((main.getLast?).getD 0)).height := hMtip
  refine ⟨fun k id h => ?_, fun k id h => ?_, ⟨hMne, fun id hid => ?_, ?_⟩, fun i hi => ?_⟩
  · show id < heapB.length ∧ pyStrOfInt (heapGet heapB id).hash = k
    obtain ⟨hlt, hkey⟩ := hPool' k id h
    obtain ⟨a, ha⟩ := hfields id
    refine ⟨by omega, ?_⟩
    rw [ha]
    exact hkey
  · show 0 ≤ (heapGet heapB id).height ∧
      ((heapGet heapB id).height ≠ 0 →
        ∃ pid, dictGet pool (heapGet heapB id).prev_hash = some pid ∧
          (heapGet heapB pid).height + 1 = (heapGet heapB id).height)
    obtain ⟨h0, hparent⟩ := hPar' k id h
    obtain ⟨a, ha⟩ := hfields id
    rw [ha]
    refine ⟨h0, fun hnz => ?_⟩
    obtain ⟨pid, hpid, hph⟩ := hparent hnz
    obtain ⟨a2, ha2⟩ := hfields pid
    exact ⟨pid, hpid, by rw [ha2]; exact hph⟩
  · show id < heapB.length
    have := hMids' id hid
    omega
  · show 0 ≤ (heapGet heapB ((main.getLast?).getD 0)).height
    obtain ⟨a, ha⟩ := hfields ((main.getLast?).getD 0)
    rw [ha]
    exact hMtip'
  · show (heapGet heapB (main.getD (i + 1) 0)).prev_hash
        = pyStrOfInt (heapGet heapB (main.getD i 0)).hash ∧
      (heapGet heapB (main.getD (i + 1) 0)).height
        = (heapGet heapB (main.getD i 0)).height + 1
    obtain ⟨a1, ha1⟩ := hfields (main.getD (i + 1) 0)
    obtain ⟨a0, ha0⟩ := hfields (main.getD i 0)
    have hL := hLink i hi
    rw [ha1, ha0]
    exact hL

theorem add_block_invalid (sh : String → ℤ) (now : ℚ) (st : Blockchain) (b : Block)
    (hv : Blockchain.validate_block sh now st b = false) :
    Blockchain.add_block sh now st b = (false, st) := by
  unfold Blockchain.add_block
  rw [if_pos hv]

theorem add_block_fork (sh : String → ℤ) (now : ℚ) (st : Blockchain) (b : Block)
    (hv : Blockchain.validate_block sh now st b = true)
    (htip : ¬(st.tip.height < b.height)) :
    Blockchain.add_block sh now st b =
      (false, ⟨(st.heap ++ [b]).set st.heap.length { b with accepted := false },
               dictSet st.blocks (pyStrOfInt b.hash) st.heap.length,
               st.main_chain, st.difficulty⟩) := by
  simp only [Blockchain.add_block, hv, Bool.true_eq_false, if_false]
  rw [if_neg htip]

theorem add_block_reorg (sh : String → ℤ) (now : ℚ) (st : Blockchain) (b : Block)
    (hv : Blockchain.validate_block sh now st b = true)
    (htip : st.tip.height < b.height) (l : List ℕ)
    (hwl : walkBack (st.heap ++ [b]) (dictSet st.blocks (pyStrOfInt b.hash) st.heap.length)
        ((dictSet st.blocks (pyStrOfInt b.hash) st.heap.length).length + b.height.natAbs + 2)
        st.heap.length = some l) :
    Blockchain.add_block sh now st b =
      (true, ⟨markAccepted (markAccepted (st.heap ++ [b]) st.main_chain false) l.reverse true,
              dictSet st.blocks (pyStrOfInt b.hash) st.heap.length,
              l.reverse, st.difficulty⟩) := by
  simp only [Blockchain.add_block, hv, Bool.true_eq_false, if_false]
  rw [if_pos htip]
  simp only [hwl]

theorem Inv_init (sh : String → ℤ) (now : ℚ) : Inv (Blockchain.init sh now) := by
  refine ⟨fun k id h => ?_, fun k id h => ?_, ⟨?_, fun id hid => ?_, ?_⟩, fun i hi => ?_⟩
  · have h' : dictGet [(pyStrOfInt (genesisBlock sh now).hash, 0)] k = some id := h
    show id < 1 ∧ pyStrOfInt (heapGet [genesisBlock sh now] id).hash = k
    simp only [dictGet] at h'
    by_cases hk : pyStrOfInt (genesisBlock sh now).hash = k
    · rw [if_pos hk] at h'
      obtain rfl : (0 : ℕ) = id := by injection h'
      exact ⟨by omega, hk⟩
    · rw [if_neg hk] at h'
      cases h'
  · have h' : dictGet [(pyStrOfInt (genesisBlock sh now).hash, 0)] k = some id := h
    show 0 ≤ (heapGet [genesisBlock sh now] id).height ∧
      ((heapGet [genesisBlock sh now] id).height ≠ 0 →
        ∃ pid, dictGet (Blockchain.init sh now).blocks
            (heapGet [genesisBlock sh now] id).prev_hash = some pid ∧
          (heapGet [genesisBlock sh now] pid).height + 1
            = (heapGet [genesisBlock sh now] id).height)
    simp only [dictGet] at h'
    by_cases hk : pyStrOfInt (genesisBlock sh now).hash = k
    · rw [if_pos hk] at h'
      obtain rfl : (0 : ℕ) = id := by injection h'
      exact ⟨le_refl 0, fun hnz => absurd rfl hnz⟩
    · rw [if_neg hk] at h'
      cases h'
  · show ([0] : List ℕ) ≠ []
    simp
  · have hid' : id ∈ ([0] : List ℕ) := hid
    show id < 1
    simp at hid'
    omega
  · show 0 ≤ (genesisBlock sh now).height
    exact le_refl 0
  · change i + 1 < ([0] : List ℕ).length at hi
    simp at hi

theorem Inv_step (sh : String → ℤ) (now : ℚ) (st : Blockchain) (b : Block)
    (hInv : Inv st)
    (hfresh : dictGet st.blocks (pyStrOfInt b.hash) = none) :
    Inv (Blockchain.add_block sh now st b).2 := by
  obtain ⟨hPool, hPar, ⟨hMne, hMids, hMtip⟩, hLink⟩ := hInv
  cases hvb : Blockchain.validate_block sh now st b with
  | false =>
    rw [add_block_invalid sh now st b hvb]
    exact ⟨hPool, hPar, ⟨hMne, hMids, hMtip⟩, hLink⟩
  | true =>
    obtain ⟨hdg, hdiff, hts, hcont⟩ := (validate_true_iff sh now st b).mp hvb
    have hgetb : heapGet (st.heap ++ [b]) st.heap.length = b := heapGet_append_len st.heap b
    have hget1 : ∀ id, id < st.heap.length →
        heapGet (st.heap ++ [b]) id = heapGet st.heap id :=
      fun id h => heapGet_append_lt st.heap [b] id h
    have hlen1 : (st.heap ++ [b]).length = st.heap.length + 1 := by simp
    have hp1 : ∀ k', dictGet (dictSet st.blocks (pyStrOfInt b.hash) st.heap.length) k'
        = if k' = pyStrOfInt b.hash then some st.heap.length else dictGet st.blocks k' :=
      fun k' => dictGet_dictSet st.blocks (pyStrOfInt b.hash) st.heap.length k'
    have hbh : 0 ≤ b.height := by
      rcases hcont with h0 | ⟨pid, hpid, hh, _⟩
      · omega
      · have h1 := (hPar _ pid hpid).1
        omega
    have hPool1 : ∀ k id,
        dictGet (dictSet st.blocks (pyStrOfInt b.hash) st.heap.length) k = some id →
        id < (st.heap ++ [b]).length ∧ pyStrOfInt (heapGet (st.heap ++ [b]) id).hash = k := by
      intro k id h
      rw [hp1 k] at h
      by_cases hk : k = pyStrOfInt b.hash
      · rw [if_pos hk] at h
        obtain rfl : st.heap.length = id := by injection h
        refine ⟨by omega, ?_⟩
        rw [hgetb, hk]
      · rw [if_neg hk] at h
        obtain ⟨hlt, hkey⟩ := hPool k id h
        exact ⟨by omega, by rw [hget1 id hlt]; exact hkey⟩
    have hPar1 : ∀ k id,
        dictGet (dictSet st.blocks (pyStrOfInt b.hash) st.heap.length) k = some id →
        0 ≤ (heapGet (st.heap ++ [b]) id).height ∧
        ((heapGet (st.heap ++ [b]) id).height ≠ 0 →
          ∃ pid, dictGet (dictSet st.blocks (pyStrOfInt b.hash) st.heap.length)
              (heapGet (st.heap ++ [b]) id).prev_hash = some pid ∧
            (heapGet (st.heap ++ [b]) pid).height + 1
              = (heapGet (st.heap ++ [b]) id).height) := by
      intro k id h
      rw [hp1 k] at h
      by_cases hk : k = pyStrOfInt b.hash
      · rw [if_pos hk] at h
        obtain rfl : st.heap.length = id := by injection h
        rw [hgetb]
        refine ⟨hbh, fun hnz => ?_⟩
        rcases hcont with h0 | ⟨pid, hpid, hh, _⟩
        · exact absurd h0 hnz
        · have hpidlt := (hPool _ pid hpid).1
          have hkne : b.prev_hash ≠ pyStrOfInt b.hash := by
            intro he
            rw [he, hfresh] at hpid
            cases hpid
          refine ⟨pid, ?_, ?_⟩
          · rw [hp1, if_neg hkne]
            exact hpid
          · rw [hget1 pid hpidlt]
            omega
      · rw [if_neg hk] at h
        obtain ⟨h0, hparent⟩ := hPar k id h
        have hidlt := (hPool k id h).1
        rw [hget1 id hidlt]
        refine ⟨h0, fun hnz => ?_⟩
        obtain ⟨pid, hpid, hph⟩ := hparent hnz
        have hpidlt := (hPool _ pid hpid).1
        have hkne2 : (heapGet st.heap id).prev_hash ≠ pyStrOfInt b.hash := by
          intro he
          rw [he, hfresh] at hpid
          cases hpid
        exact ⟨pid, by rw [hp1, if_neg hkne2]; exact hpid,
               by rw [hget1 pid hpidlt]; exact hph⟩
    have hMids1 : ∀ id ∈ st.main_chain, id < (st.heap ++ [b]).length := by
      intro id hid
      have := hMids id hid
      omega
    have htipid_mem : st.tipId ∈ st.main_chain := by
      have hsome := List.getLast?_eq_getLast st.main_chain hMne
      show (st.main_chain.getLast?).getD 0 ∈ st.main_chain
      rw [hsome]
      exact List.getLast_mem hMne
    have htiplt : st.tipId < st.heap.length := hMids _ htipid_mem
    have htipheight : (heapGet (st.heap ++ [b]) st.tipId).height = st.tip.height := by
      rw [hget1 _ htiplt]
      rfl
    have hMtip' : 0 ≤ st.tip.height := hMtip
    by_cases htip : st.tip.height < b.height
    · -- successful reorganisation
      have hbnz : (heapGet (st.heap ++ [b]) st.heap.length).height ≠ 0 := by
        rw [hgetb]
        omega
      have hin : InPool (dictSet st.blocks (pyStrOfInt b.hash) st.heap.length) st.heap.length :=
        ⟨pyStrOfInt b.hash, by rw [hp1]; simp⟩
      have hfuel : (heapGet (st.heap ++ [b]) st.heap.length).height.natAbs <
          (dictSet st.blocks (pyStrOfInt b.hash) st.heap.length).length + b.height.natAbs + 2 := by
        rw [hgetb]
        omega
      obtain ⟨l, hwl, hhead, hchain, hmem⟩ :=
        walkBack_ok (st.heap ++ [b]) (dictSet st.blocks (pyStrOfInt b.hash) st.heap.length)
          hPool1 hPar1 _ st.heap.length hin hbnz hfuel
      rw [add_block_reorg sh now st b hvb htip l hwl]
      have hlne : l ≠ [] := by
        cases l with
        | nil => cases hhead
        | cons a t => simp
      have hInvMid : Inv ⟨st.heap ++ [b],
          dictSet st.blocks (pyStrOfInt b.hash) st.heap.length, l.reverse, st.difficulty⟩ := by
        refine ⟨hPool1, hPar1, ⟨by simpa using hlne, fun id hid => ?_, ?_⟩, ?_⟩
        · exact hmem id (List.mem_reverse.mp hid)
        · show 0 ≤ (heapGet (st.heap ++ [b]) ((l.reverse.getLast?).getD 0)).height
          rw [List.getLast?_reverse, hhead]
          show 0 ≤ (heapGet (st.heap ++ [b]) st.heap.length).height
          rw [hgetb]
          exact hbh
        · have hchainB : List.Chain' (fun x y => descLink (st.heap ++ [b]) y x) l.reverse :=
            List.chain'_reverse.mpr hchain
          exact chainLinked_of_chain' (st.heap ++ [b])
            (dictSet st.blocks (pyStrOfInt b.hash) st.heap.length) l.reverse st.difficulty hchainB
      refine Inv_transfer (st.heap ++ [b]) _ _ _ st.difficulty st.difficulty ?_ ?_ hInvMid
      · rw [markAccepted_length, markAccepted_length]
      · intro j
        obtain ⟨a2, ha2⟩ :=
          heapGet_markAccepted (markAccepted (st.heap ++ [b]) st.main_chain false) l.reverse true j
        obtain ⟨a1, ha1⟩ := heapGet_markAccepted (st.heap ++ [b]) st.main_chain false j
        exact ⟨a2, by rw [ha2, ha1]⟩
    · -- fork: the block is kept only in the dict
      rw [add_block_fork sh now st b hvb htip]
      have hInvMid : Inv ⟨st.heap ++ [b],
          dictSet st.blocks (pyStrOfInt b.hash) st.heap.length, st.main_chain, st.difficulty⟩ := by
        refine ⟨hPool1, hPar1, ⟨hMne, hMids1, ?_⟩, ?_⟩
        · show 0 ≤ (heapGet (st.heap ++ [b]) ((st.main_chain.getLast?).getD 0)).height
          show 0 ≤ (heapGet (st.heap ++ [b]) st.tipId).height
          rw [htipheight]
          exact hMtip'
        · intro i hi
          have hL := hLink i hi
          change i + 1 < st.main_chain.length at hi
          have hi0 : i < st.main_chain.length := by omega
          have hm1 : st.main_chain.getD (i + 1) 0 ∈ st.main_chain := by
            rw [List.getD_eq_getElem st.main_chain 0 hi]
            exact List.getElem_mem hi
          have hm0 : st.main_chain.getD i 0 ∈ st.main_chain := by
            rw [List.getD_eq_getElem st.main_chain 0 hi0]
            exact List.getElem_mem hi0
          show (heapGet (st.heap ++ [b]) (st.main_chain.getD (i + 1) 0)).prev_hash
              = pyStrOfInt (heapGet (st.heap ++ [b]) (st.main_chain.getD i 0)).hash ∧
            (heapGet (st.heap ++ [b]) (st.main_chain.getD (i + 1) 0)).height
              = (heapGet (st.heap ++ [b]) (st.main_chain.getD i 0)).height + 1
          rw [hget1 _ (hMids _ hm1), hget1 _ (hMids _ hm0)]
          exact hL
      refine Inv_transfer (st.heap ++ [b]) _ _ _ st.difficulty st.difficulty ?_ ?_ hInvMid
      · rw [List.length_set]
      · intro j
        by_cases hj : j = st.heap.length
        · subst hj
          rw [heapGet_set_lt _ _ _ (by omega), hgetb]
          exact ⟨false, rfl⟩
        · rw [heapGet_set_ne _ _ _ _ (fun he => hj he.symm)]
          exact ⟨(heapGet (st.heap ++ [b]) j).accepted, rfl⟩

/-- C2 (amended): along any run of add_block calls from a fresh store in
which no submitted block reuses a digest string already present in the
pool, the canonical chain always satisfies parent-linkage
(chain[i].prev_hash = str(chain[i-1].hash)) and exact height increments.
Without that proviso the height part fails (see the counterexample). -/
theorem claim2_main_chain_linked_no_collision (sh : String → ℤ) (st : Blockchain)
    (h : ReachableNC sh st) : chainLinked st := by
  have hInv : Inv st := by
    induction h with
    | init now => exact Inv_init sh now
    | step st' b now hr hfresh ih => exact Inv_step sh now st' b ih hfresh
  exact hInv.2.2.2

/-- C2 witness: the fresh store is reachable and satisfies the
invariant. -/
theorem claim2_witness : chainLinked (Blockchain.init shZero 0) :=
  claim2_main_chain_linked_no_collision shZero (Blockchain.init shZero 0)
    (ReachableNC.init 0)

/-- Shorthand for an add_block call with the concrete string hash shZero
and wall clock 0, used to build the collision scenario. -/
def addZ (st : Blockchain) (b : Block) : Blockchain :=
  (Blockchain.add_block shZero 0 st b).2

/-- Collision scenario: seven submitted blocks (all timestamps 0, data
hashes 0 under shZero, difficulty 4). The fifth block has the same digest
100 as the second and overwrites its dict entry; the later
reorganisation walk then routes the canonical chain through the
overwritten entry, breaking the height-increment invariant. -/
def cexState : Blockchain :=
  addZ (addZ (addZ (addZ (addZ (addZ (addZ (Blockchain.init shZero 0)
    ⟨1, "0", 0, "d", 9911, "m", 100, false⟩)
    ⟨2, "100", 0, "d", 1953, "m", 101, false⟩)
    ⟨1, "0", 0, "e", 3011, "m", 200, false⟩)
    ⟨2, "200", 0, "e", 1953, "m", 201, false⟩)
    ⟨3, "201", 0, "e", 9002, "m", 100, false⟩)
    ⟨3, "101", 0, "f", 8302, "m", 300, false⟩)
    ⟨4, "300", 0, "f", 554, "m", 310, false⟩

set_option maxRecDepth 8000 in
/-- C2 counterexample: after the seven add_block calls of cexState the
canonical chain is [0, 3, 4, 5, 2, 6, 7] with heights [0, 1, 2, 3, 2, 3, 4]
— the block at position 4 sits at height 2 directly after a height-3
block, so the claimed invariant fails on a state reachable purely through
add_block. -/
theorem claim2_counterexample :
    cexState.main_chain = [0, 3, 4, 5, 2, 6, 7] ∧
    cexState.main_chain.map (fun i => (heapGet cexState.heap i).height)
        = [0, 1, 2, 3, 2, 3, 4] ∧
    (heapGet cexState.heap (cexState.main_chain.getD 4 0)).height ≠
      (heapGet cexState.heap (cexState.main_chain.getD 3 0)).height + 1 ∧
    ¬ chainLinked cexState := by
  refine ⟨by decide, by decide, by decide, fun h => ?_⟩
  have h3 := (h 3 (by decide)).2
  revert h3
  decide

end BPoW
